import Mathlib

/-!
Verification of the TrollStore repo-source maker's export and ingestion
pipeline (src/types.ts and src/components/ImportModal.tsx), shallowly
embedded in Lean.  Host (JavaScript) string builtins are modelled by small
executable helpers over character lists; JSON documents are modelled by an
inductive value type.
-/

set_option maxRecDepth 4000

/-- Character-list version of a starts-with test (models
`String.prototype.startsWith` restricted to literal needles). -/
def charsLeadWith : List Char → List Char → Bool
  | _, [] => true
  | [], _ :: _ => false
  | c :: cs, d :: ds => c == d && charsLeadWith cs ds

/-- Substring containment on character lists (models
`String.prototype.includes`). -/
def charsContain : List Char → List Char → Bool
  | [], sub => charsLeadWith [] sub
  | c :: cs, sub => charsLeadWith (c :: cs) sub || charsContain cs sub

/-- Models `url.includes(sub)` on JS strings. -/
def strIncludes (s sub : String) : Bool :=
  charsContain s.toList sub.toList

/-- Models `s.startsWith(p)` on JS strings. -/
def jsStartsWith (s p : String) : Bool :=
  charsLeadWith s.toList p.toList

/-- Models `String.prototype.trim` (whitespace stripped from both ends). -/
def jsTrim (s : String) : String :=
  String.mk (((s.toList.dropWhile Char.isWhitespace).reverse.dropWhile
    Char.isWhitespace).reverse)

/-- Models `String.prototype.toLowerCase` for the ASCII inputs used here. -/
def jsToLower (s : String) : String :=
  String.mk (s.toList.map Char.toLower)

/-- Splits a string on every occurrence of a single separator character,
mirroring `String.prototype.split` with a one-character separator. -/
def splitOnCharAux (sep : Char) : List Char → List Char → List String
  | [], cur => [String.mk cur.reverse]
  | c :: cs, cur =>
    if c == sep then String.mk cur.reverse :: splitOnCharAux sep cs []
    else splitOnCharAux sep cs (c :: cur)

def splitOnChar (sep : Char) (s : String) : List String :=
  splitOnCharAux sep s.toList []

/-- Models `parseInt` on the dot-split pieces of a cleaned version string:
a piece parses to the value of its leading digit run and fails (`NaN`,
modelled as `none`) when it does not start with a digit. -/
def parsePieceInt (s : String) : Option Nat :=
  let ds := s.toList.takeWhile Char.isDigit
  if ds.isEmpty then none
  else some (ds.foldl (fun n c => n * 10 + (c.toNat - 48)) 0)

/-- `clean` of `compareVersions` (src/types.ts): strip one leading `v`/`V`
and surrounding whitespace. -/
def cleanVersion (v : String) : String :=
  jsTrim (if jsStartsWith v "v" || jsStartsWith v "V" then
    String.mk (v.toList.drop 1) else v)

/-- The numeric component sequence of a cleaned version string: every
character that is not a digit or a dot is removed, the rest is split on
dots and each piece parsed as an integer, failed parses discarded. -/
def versionNums (s : String) : List Nat :=
  (splitOnChar '.' (String.mk (s.toList.filter fun c =>
    c.isDigit || c == '.'))).filterMap parsePieceInt

/-- Comparison of the zero-padded suffix: the JS loop reads missing
positions of the shorter list as `0`. -/
def cmpZeros : List Nat → Int
  | [] => 0
  | b :: bs => if 0 < b then -1 else cmpZeros bs

/-- Position-by-position comparison of the numeric component lists, the
shorter one padded with zeros (the loop of `compareVersions`). -/
def compareNumParts : List Nat → List Nat → Int
  | [], bs => cmpZeros bs
  | a :: as, [] => if 0 < a then 1 else compareNumParts as []
  | a :: as, b :: bs =>
    if b < a then 1 else if a < b then -1 else compareNumParts as bs

/-- Models `s1.localeCompare(s2)` by code-point order, the host collation
restricted to the ASCII labels reachable here. -/
def charListCmp : List Char → List Char → Int
  | [], [] => 0
  | [], _ :: _ => -1
  | _ :: _, [] => 1
  | a :: as, b :: bs =>
    if a.toNat < b.toNat then -1
    else if b.toNat < a.toNat then 1
    else charListCmp as bs

def localeCompare (a b : String) : Int :=
  charListCmp a.toList b.toList

/-- `compareVersions` (src/types.ts lines 214-248). -/
def compareVersions (v1 v2 : String) : Int :=
  let s1 := cleanVersion v1
  let s2 := cleanVersion v2
  if s1 = s2 then 0
  else
    let n1 := versionNums s1
    let n2 := versionNums s2
    if n1.isEmpty && n2.isEmpty then localeCompare s1 s2
    else compareNumParts n1 n2

/-- `compatibilityStatus` values (src/types.ts line 18). -/
inductive CompatStatus where
  | safe
  | jit_required
  | trollstore_only
  | jailbreak_only
  | unknown
deriving DecidableEq, Repr

/-- `AppItem` (src/types.ts lines 3-19); optional fields are `Option`. -/
structure AppItem where
  id : String
  name : String
  bundleIdentifier : String
  developerName : String
  version : String
  versionDate : String
  versionDescription : String
  downloadURL : String
  localizedDescription : String
  iconURL : String
  tintColor : Option String
  size : Option Int
  category : Option String
  screenshotURLs : List String
  compatibilityStatus : Option CompatStatus
deriving DecidableEq, Repr

/-- `Repo` (src/types.ts lines 21-30). -/
structure Repo where
  name : String
  subtitle : String
  description : String
  iconURL : String
  headerImageURL : String
  website : String
  tintColor : String
  apps : List AppItem
deriving DecidableEq, Repr

/-- `DEFAULT_REPO` (src/types.ts lines 63-72). -/
def DEFAULT_REPO : Repo :=
  { name := "My Repo"
    subtitle := "A collection of apps"
    description := "Welcome to my repository."
    iconURL := "https://picsum.photos/200/200"
    headerImageURL := "https://picsum.photos/1200/400"
    website := ""
    tintColor := "#3b82f6"
    apps := [] }

/-- The `config` argument of `getFilteredApps`. -/
structure ExportConfig where
  deduplicate : Bool
  filterIncompatible : Bool
deriving DecidableEq, Repr

/-- `blockedStatuses` inside the compatibility filter. -/
def blockedStatuses : List CompatStatus :=
  [CompatStatus.jailbreak_only, CompatStatus.trollstore_only,
   CompatStatus.jit_required]

/-- The fixed keyword list of the compatibility filter. -/
def keywordList : List String :=
  ["jailbreak only", "jailbreak required", "requires jailbreak",
   "trollstore only", "trollstore required", "requires trollstore",
   "root required", "root only", "unsandboxed", "no sandbox",
   "jit required", "requires jit"]

/-- The concatenated case-folded text the keyword fallback scans. -/
def compatText (a : AppItem) : String :=
  jsToLower (a.name ++ " " ++ a.localizedDescription ++ " " ++
    a.versionDescription ++ " " ++ a.category.getD "")

/-- The predicate of the compatibility filter of `getFilteredApps`
(src/types.ts lines 262-297): `true` keeps the app. -/
def compatKeep (a : AppItem) : Bool :=
  match a.compatibilityStatus with
  | some s =>
    if s != CompatStatus.unknown then !(blockedStatuses.contains s)
    else !(keywordList.any fun kw => strIncludes (compatText a) kw)
  | none => !(keywordList.any fun kw => strIncludes (compatText a) kw)

/-- The deduplication key of `getFilteredApps` (src/types.ts lines
309-320). -/
def dedupKey (a : AppItem) : String :=
  let bid := jsToLower (jsTrim a.bundleIdentifier)
  let nm := jsToLower (jsTrim a.name)
  if bid.length > 0 && strIncludes bid "." then "bid:" ++ bid
  else if nm.length > 0 then "name:" ++ nm
  else "__id_" ++ a.id

/-- Association-list model of the JS `Map`: first (unique) match. -/
def findEntry : List (String × AppItem) → String → Option AppItem
  | [], _ => none
  | e :: m, k => if e.1 = k then some e.2 else findEntry m k

/-- `Map.set`: update the entry in place when the key exists, else append
(so `Map.values()` order is key insertion order). -/
def mapSet : List (String × AppItem) → String → AppItem →
    List (String × AppItem)
  | [], k, a => [(k, a)]
  | e :: m, k, a => if e.1 = k then (k, a) :: m else e :: mapSet m k a

/-- One step of the `latestMap` loop (src/types.ts lines 308-334). -/
def insertApp (m : List (String × AppItem)) (a : AppItem) :
    List (String × AppItem) :=
  let k := dedupKey a
  match findEntry m k with
  | none => mapSet m k a
  | some existing =>
    let diff := compareVersions a.version existing.version
    if diff > 0 then mapSet m k a
    else if diff = 0 then mapSet m k a
    else m

/-- The deduplication pass: fold the apps through the `latestMap` and read
the values back in key insertion order. -/
def dedupApps (l : List AppItem) : List AppItem :=
  (l.foldl insertApp []).map Prod.snd

/-- `getFilteredApps` (src/types.ts lines 251-337). -/
def getFilteredApps (apps : List AppItem) (config : ExportConfig) :
    List AppItem :=
  if !config.deduplicate && !config.filterIncompatible then apps
  else
    let processed :=
      if config.filterIncompatible then apps.filter compatKeep else apps
    if !config.deduplicate then processed
    else dedupApps processed

/-- The app shape of the exported document: `id` and `compatibilityStatus`
are not part of the public schema, so the exported record has no such
fields at all. -/
structure ExportedApp where
  name : String
  bundleIdentifier : String
  developerName : String
  version : String
  versionDate : String
  versionDescription : String
  downloadURL : String
  localizedDescription : String
  iconURL : String
  tintColor : Option String
  size : Option Int
  category : Option String
  screenshotURLs : List String
deriving DecidableEq, Repr

structure ExportedRepo where
  name : String
  subtitle : String
  description : String
  iconURL : String
  headerImageURL : String
  website : String
  tintColor : String
  apps : List ExportedApp
deriving DecidableEq, Repr

/-- The per-app sanitization of `processRepoForExport`: drop `id` and
`compatibilityStatus` (by the shape of `ExportedApp`), replace an empty
`iconURL` by the placeholder (`rest.iconURL || placeholder`), and keep only
non-blank screenshots (`u && u.trim() !== ""`). -/
def exportApp (a : AppItem) : ExportedApp :=
  { name := a.name
    bundleIdentifier := a.bundleIdentifier
    developerName := a.developerName
    version := a.version
    versionDate := a.versionDate
    versionDescription := a.versionDescription
    downloadURL := a.downloadURL
    localizedDescription := a.localizedDescription
    iconURL := if a.iconURL = "" then "https://placehold.co/128x128.png"
      else a.iconURL
    tintColor := a.tintColor
    size := a.size
    category := a.category
    screenshotURLs := a.screenshotURLs.filter fun u =>
      u != "" && jsTrim u != "" }

/-- `processRepoForExport` (src/types.ts lines 339-351). -/
def processRepoForExport (repo : Repo) (config : ExportConfig) :
    ExportedRepo :=
  { name := repo.name
    subtitle := repo.subtitle
    description := repo.description
    iconURL := repo.iconURL
    headerImageURL := repo.headerImageURL
    website := repo.website
    tintColor := repo.tintColor
    apps := (getFilteredApps repo.apps config).map exportApp }

/-- The tie-and-better replacement rule of the dedup loop, as the spec
describes it: a later entry replaces the current survivor exactly when its
version compares greater-or-equal. -/
def laterWins (cur a : AppItem) : AppItem :=
  if compareVersions a.version cur.version ≥ 0 then a else cur

/-- Spec-side description of the per-group survivor: scan the group in
encounter order, replacing on greater-or-tie. -/
def groupWinner : List AppItem → Option AppItem
  | [] => none
  | h :: t => some (t.foldl laterWins h)

def optFold : Option AppItem → List AppItem → Option AppItem
  | none, g => groupWinner g
  | some c, g => some (g.foldl laterWins c)

def WFmap (m : List (String × AppItem)) : Prop :=
  (∀ e ∈ m, dedupKey e.2 = e.1) ∧ (m.map Prod.fst).Nodup
/-- The deduplication key as the spec words it. -/
def specDedupKey (a : AppItem) : String :=
  let bid := jsToLower (jsTrim a.bundleIdentifier)
  let nm := jsToLower (jsTrim a.name)
  if bid ≠ "" ∧ strIncludes bid "." = true then "bid:" ++ bid
  else if nm ≠ "" then "name:" ++ nm
  else "__id_" ++ a.id
def mkApp (id nm bid ver : String) : AppItem :=
  { id := id, name := nm, bundleIdentifier := bid, developerName := ""
    version := ver, versionDate := "", versionDescription := ""
    downloadURL := "", localizedDescription := "", iconURL := ""
    tintColor := none, size := none, category := none
    screenshotURLs := [], compatibilityStatus := none }

def c2v1 : AppItem := mkApp "x1" "X" "com.a.app" "1.0"

def c2v2 : AppItem := mkApp "x2" "X" "com.a.app" "2.0"

def cexBeta : AppItem := mkApp "a1" "A" "com.a.app" "Beta"

def cexZero : AppItem := mkApp "a2" "B" "com.a.app" "0"

def cexAlpha : AppItem := mkApp "a3" "C" "com.a.app" "Alpha"

def c5app : AppItem :=
  { (mkApp "c5" "Cool Tool jailbreak only" "com.c.app" "1.0") with
    compatibilityStatus := some CompatStatus.safe }

def c3shotApp : AppItem :=
  { (mkApp "s" "S" "com.s.app" "1.0") with
    screenshotURLs := ["", "  ", "https://x/1.png"] }

/-- Parsed JSON values (the argument of `processParsing`); numbers are
modelled as integers, no claim involves a fractional payload. -/
inductive JValue where
  | jnull
  | jbool (b : Bool)
  | jnum (n : Int)
  | jstr (s : String)
  | jarr (elems : List JValue)
  | jobj (fields : List (String × JValue))

/-- Field lookup in a parsed JSON object; `JSON.parse` keeps the last
duplicate key, so the last binding wins. -/
def jGetFields : List (String × JValue) → String → Option JValue
  | [], _ => none
  | (k, v) :: rest, key =>
    match jGetFields rest key with
    | some r => some r
    | none => if k = key then some v else none

/-- Models JS property access `x[key]` for a non-`null` receiver:
`undefined` (here `none`) on anything that is not an object with that key.
Property access on `null` throws in the host, so every call site guards
the `null` case explicitly: `processParsing` for the root's `source`
access, `normalizeApp` for the app entries. -/
def jGet : JValue → String → Option JValue
  | JValue.jobj fs, key => jGetFields fs key
  | _, _ => none

/-- JS truthiness of an optionally-present value. -/
def jTruthy : Option JValue → Bool
  | none => false
  | some JValue.jnull => false
  | some (JValue.jbool b) => b
  | some (JValue.jnum n) => n != 0
  | some (JValue.jstr s) => s != ""
  | some (JValue.jarr _) => true
  | some (JValue.jobj _) => true

/-- Scalar part of the host `String()` conversion. -/
def jsScalarString : JValue → String
  | JValue.jnull => "null"
  | JValue.jbool true => "true"
  | JValue.jbool false => "false"
  | JValue.jnum n => toString n
  | JValue.jstr s => s
  | JValue.jarr _ => ""
  | JValue.jobj _ => "[object Object]"

/-- Models the host `String()` conversion.  Arrays join their elements with
commas one level deep, `null` elements becoming empty; nested arrays are
not reachable from the documents any claim touches. -/
def jsString (v : JValue) : String :=
  match v with
  | JValue.jarr l => String.intercalate ","
      (l.map fun x => match x with
        | JValue.jnull => ""
        | y => jsScalarString y)
  | x => jsScalarString x

/-- `v || d` on an optionally-present JSON value, stringified. -/
def jStrOr (v : Option JValue) (d : String) : String :=
  match v with
  | some x => if jTruthy (some x) then jsString x else d
  | none => d

/-- `v !== undefined ? String(v) : d`. -/
def jStrOrElse (v : Option JValue) (d : String) : String :=
  match v with
  | some x => jsString x
  | none => d

/-- Models `Number()` coercion for the integer payloads reachable here
(digit strings parse, anything else coerces to 0). -/
def jsNumber : JValue → Int
  | JValue.jnum n => n
  | JValue.jbool true => 1
  | JValue.jstr s => Int.ofNat ((parsePieceInt s).getD 0)
  | _ => 0

/-- Models the fresh id `Math.random().toString(36).substring(2, 9)`
assigned to an imported app lacking one, deterministically by the entry's
position in the list. -/
def genId (idx : Nat) : String := "id-" ++ toString idx

/-- The field mapping of one non-`null` app entry of `processParsing`
(ImportModal.tsx lines 180-194). -/
def normalizeAppCore (repoTint today : String) (idx : Nat) (app : JValue) :
    AppItem :=
  { id := if jTruthy (jGet app "id") then jsString ((jGet app "id").getD JValue.jnull)
      else genId idx
    name := jStrOr (jGet app "name") ("App " ++ toString (idx + 1))
    bundleIdentifier := jStrOr (jGet app "bundleIdentifier")
      (jStrOr (jGet app "bundleID")
        (jStrOr (jGet app "identifier") "com.example.app"))
    developerName := jStrOr (jGet app "developerName")
      (jStrOr (jGet app "developer") "Unknown")
    version := if jTruthy (jGet app "version") then
        jsString ((jGet app "version").getD JValue.jnull)
      else "1.0"
    versionDate := jStrOr (jGet app "versionDate") today
    versionDescription := jStrOr (jGet app "versionDescription")
      (jStrOr (jGet app "changelog") "")
    downloadURL := jStrOr (jGet app "downloadURL")
      (jStrOr (jGet app "download") "")
    localizedDescription := jStrOr (jGet app "localizedDescription")
      (jStrOr (jGet app "description") "")
    iconURL := jStrOr (jGet app "iconURL") (jStrOr (jGet app "icon") "")
    tintColor := some (jStrOr (jGet app "tintColor") repoTint)
    size := some (if jTruthy (jGet app "size") then
        jsNumber ((jGet app "size").getD JValue.jnull)
      else 0)
    category := none
    screenshotURLs := match jGet app "screenshotURLs" with
      | some (JValue.jarr l) => l.map jsString
      | _ => []
    compatibilityStatus := none }

/-- One app entry of `processParsing` (ImportModal.tsx lines 178-195).
The first thing the map callback evaluates is the property access
`app.id`, which the host throws on a `null` entry (a `TypeError` the
surrounding try/catch rethrows), so a `null` entry aborts the whole
ingestion; every other entry maps through `normalizeAppCore`. -/
def normalizeApp (repoTint today : String) (idx : Nat) (app : JValue) :
    Except String AppItem :=
  match app with
  | JValue.jnull =>
    Except.error "Cannot read properties of null (reading \x27id\x27)"
  | a => Except.ok (normalizeAppCore repoTint today idx a)

/-- `rawApps.map(...)` over the indexed entries: the host map runs left to
right and the first throwing entry aborts it. -/
def normalizeApps (repoTint today : String) :
    List (Nat × JValue) → Except String (List AppItem)
  | [] => Except.ok []
  | p :: rest =>
    match normalizeApp repoTint today p.1 p.2 with
    | Except.ok a =>
      match normalizeApps repoTint today rest with
      | Except.ok tl => Except.ok (a :: tl)
      | Except.error e => Except.error e
    | Except.error e => Except.error e

/-- The `source`-unwrapping step of `processParsing`: a nested non-array
object at key `source` replaces the root. -/
def unwrapSource (data : JValue) : JValue :=
  match jGet data "source" with
  | some (JValue.jobj fs) => JValue.jobj fs
  | _ => data

def isObjOrArr : JValue → Bool
  | JValue.jobj _ => true
  | JValue.jarr _ => true
  | _ => false

def isJObj : JValue → Bool
  | JValue.jobj _ => true
  | _ => false

/-- The repo-field mapping of `processParsing` (ImportModal.tsx lines
156-196), applied once the unwrapped root passed the object check; the
apps map can still abort the ingestion (a `null` entry throws). -/
def buildRepo (today : String) (src : JValue) : Except String Repo :=
  let tint := jStrOr (jGet src "tintColor") DEFAULT_REPO.tintColor
  let rawApps :=
    if jTruthy (jGet src "apps") then (jGet src "apps").getD JValue.jnull
    else if jTruthy (jGet src "packages") then
      (jGet src "packages").getD JValue.jnull
    else JValue.jarr []
  let mkRepo := fun (apps : List AppItem) =>
    { name := jStrOr (jGet src "name") "Imported Repo"
      subtitle := jStrOrElse (jGet src "subtitle") DEFAULT_REPO.subtitle
      description := jStrOrElse (jGet src "description")
        DEFAULT_REPO.description
      iconURL := jStrOrElse (jGet src "iconURL")
        (jStrOr (jGet src "icon") DEFAULT_REPO.iconURL)
      headerImageURL := jStrOrElse (jGet src "headerImageURL")
        (jStrOr (jGet src "headerImage") "")
      website := jStrOrElse (jGet src "website") ""
      tintColor := tint
      apps := apps : Repo }
  match rawApps with
  | JValue.jarr l =>
    match normalizeApps tint today l.enum with
    | Except.ok apps => Except.ok (mkRepo apps)
    | Except.error e => Except.error e
  | _ => Except.ok (mkRepo [])

/-- `processParsing` (ImportModal.tsx lines 143-205).  `today` stands for
the host clock's current date string.  Reading `data.source` throws on a
`null` root; a root that is neither object nor array (after unwrapping) is
rejected; otherwise the field mapping runs, which can itself still abort
on a `null` app entry.  A success always carries a complete `Repo`. -/
def processParsing (today : String) (data : JValue) : Except String Repo :=
  match data with
  | JValue.jnull =>
    Except.error "Cannot read properties of null (reading \x27source\x27)"
  | d =>
    match unwrapSource d with
    | JValue.jobj fs => buildRepo today (JValue.jobj fs)
    | JValue.jarr l => buildRepo today (JValue.jarr l)
    | _ => Except.error "Data must be a JSON object."

def isOkE (e : Except String Repo) : Bool :=
  match e with
  | Except.ok _ => true
  | Except.error _ => false

/-- The app produced from an entry with no fields at all, at index 0 with
the default tint and a fixed ingestion date. -/
def c10app : AppItem :=
  { id := "id-0", name := "App 1", bundleIdentifier := "com.example.app"
    developerName := "Unknown", version := "1.0"
    versionDate := "2026-02-03", versionDescription := ""
    downloadURL := "", localizedDescription := "", iconURL := ""
    tintColor := some "#3b82f6", size := some 0, category := none
    screenshotURLs := [], compatibilityStatus := none }

def c10doc : JValue :=
  JValue.jobj [("apps", JValue.jarr [
    JValue.jobj [("name", JValue.jstr "Alpha Tool"),
      ("version", JValue.jstr "1.0")],
    JValue.jobj [("name", JValue.jstr "Beta Tool"),
      ("version", JValue.jstr "3.0")]])]

/-- Key characters of the control-line regex `[a-zA-Z0-9-]`. -/
def isCtrlKeyChar (c : Char) : Bool := c.isAlpha || c.isDigit || c == '-'

/-- Models one line of the Debian-control parser of `handleCydiaImport`
(the regex `([a-zA-Z0-9-]+):\s*(.+)$` with key lowercased): the value is
the rest of the line after the colon with leading whitespace stripped,
except that an all-whitespace rest backtracks to its final character. -/
def parseControlLine (line : String) : Option (String × String) :=
  let cs := line.toList
  let keyCs := cs.takeWhile isCtrlKeyChar
  if keyCs.isEmpty then none
  else
    match cs.drop keyCs.length with
    | ':' :: restCs =>
      let valCs := restCs.dropWhile Char.isWhitespace
      if valCs.isEmpty then
        if restCs.isEmpty then none
        else some (jsToLower (String.mk keyCs),
          String.mk (restCs.drop (restCs.length - 1)))
      else some (jsToLower (String.mk keyCs), String.mk valCs)
    | _ => none

/-- JS object assignment `info[k] = v`: later keys overwrite. -/
def strMapSet : List (String × String) → String → String →
    List (String × String)
  | [], k, v => [(k, v)]
  | e :: m, k, v => if e.1 = k then (k, v) :: m else e :: strMapSet m k v

def fieldGet : List (String × String) → String → Option String
  | [], _ => none
  | e :: m, k => if e.1 = k then some e.2 else fieldGet m k

/-- The `info` object built from one block of the package index. -/
def parseBlockFields (block : String) : List (String × String) :=
  (splitOnChar '\n' block).foldl (fun m line =>
    match parseControlLine line with
    | some kv => strMapSet m kv.1 kv.2
    | none => m) []

/-- `s || d` on an optionally-present JS string. -/
def jsOr (v : Option String) (d : String) : String :=
  match v with
  | some s => if s != "" then s else d
  | none => d

def jsStrTruthy : Option String → Bool
  | some s => s != ""
  | none => false

/-- Models the host URL resolution `new URL(rel, base).toString()` for the
references reachable here: an absolute http(s) reference stands alone, any
other reference is appended to the base (which ends in a slash). -/
def resolveURL (rel base : String) : String :=
  if jsStartsWith rel "http://" || jsStartsWith rel "https://" then rel
  else base ++ rel

/-- One block of the Packages index (handleCydiaImport, ImportModal.tsx
lines 89-127): an app is produced exactly when the block carries truthy
`Package` and `Filename` fields. -/
def parseCydiaBlock (url today block : String) : Option AppItem :=
  if jsTrim block = "" then none
  else
    let info := parseBlockFields block
    match fieldGet info "package", fieldGet info "filename" with
    | some pkg, some fn =>
      if pkg != "" && fn != "" then
        some { id := pkg
               name := jsOr (fieldGet info "name") pkg
               bundleIdentifier := pkg
               developerName := jsOr (fieldGet info "author")
                 (jsOr (fieldGet info "maintainer") "Unknown")
               version := jsOr (fieldGet info "version") "1.0"
               versionDate := today
               versionDescription := "Imported from Cydia Repo"
               downloadURL := resolveURL fn url
               localizedDescription := jsOr (fieldGet info "description")
                 "No description provided."
               iconURL := match fieldGet info "icon" with
                 | some ic => if ic != "" then resolveURL ic url else ""
                 | none => ""
               tintColor := some "#3b82f6"
               size := some 0
               category := none
               screenshotURLs := []
               compatibilityStatus := none }
      else none
    | _, _ => none

mutual

/-- Splitting on the regex `\n\n+` (blocks separated by blank lines). -/
def splitBlocksAux : List Char → List Char → List String
  | [], cur => [String.mk cur.reverse]
  | ['\n'], cur => [String.mk ('\n' :: cur).reverse]
  | '\n' :: '\n' :: rest, cur => String.mk cur.reverse :: splitBlocksSep rest
  | c :: rest, cur => splitBlocksAux rest (c :: cur)
termination_by cs _ => 2 * cs.length + 1

def splitBlocksSep : List Char → List String
  | [] => [""]
  | '\n' :: rest => splitBlocksSep rest
  | c :: rest => splitBlocksAux rest [c]
termination_by cs => 2 * cs.length

end

def splitBlocks (s : String) : List String :=
  splitBlocksAux s.toList []

/-- The app list produced by parsing a fetched Packages index. -/
def parseCydiaApps (url today packagesText : String) : List AppItem :=
  (splitBlocks packagesText).filterMap (parseCydiaBlock url today)
def c8block : String := "Package: foo\nFilename: files/a.deb"
def c8app : AppItem :=
  { id := "foo", name := "foo", bundleIdentifier := "foo"
    developerName := "Unknown", version := "1.0"
    versionDate := "2026-01-01"
    versionDescription := "Imported from Cydia Repo"
    downloadURL := "https://r.example/files/a.deb"
    localizedDescription := "No description provided."
    iconURL := "", tintColor := some "#3b82f6", size := some 0
    category := none, screenshotURLs := []
    compatibilityStatus := none }
/-- The usage-context argument of `validateURL`. -/
inductive URLContext where
  | image
  | file
  | website
deriving DecidableEq, Repr

def githubBlobMsg : String :=
  "This is a GitHub view page. Replace \x27/blob/\x27 with \x27/raw/\x27 to make it valid."

/-- `validateURL` (src/types.ts lines 159-210): `none` accepts, `some`
carries the advisory reason. -/
def validateURL (url : Option String) (context : URLContext) :
    Option String :=
  match url with
  | none => none
  | some u =>
    if u = "" || jsTrim u = "" then none
    else
      let lower := jsToLower u
      if !(jsStartsWith lower "https://") then
        some "Must start with https:// (SideStore requirement)"
      else if strIncludes lower "example.com" ||
          strIncludes lower "placehold.it" then
        some "This looks like a placeholder URL."
      else if strIncludes lower "localhost" ||
          strIncludes lower "127.0.0.1" then
        some "Localhost links won\x27t work on other devices."
      else if !(strIncludes lower ".") then
        some "Invalid domain."
      else
        match context with
        | URLContext.file =>
          if strIncludes lower "terabox.com" then
            some "Terabox links are NOT direct. They will not work in AltStore."
          else if strIncludes lower "mega.nz" then
            some "Mega links are encrypted and NOT direct. Use a direct mirror."
          else if strIncludes lower "mediafire.com" &&
              !(strIncludes lower "download") then
            some "Mediafire links require a direct download key."
          else if strIncludes lower "drive.google.com" then
            some "Google Drive links are unstable for Repos. Use GitHub Releases."
          else if strIncludes lower "dropbox.com" &&
              !(strIncludes lower "dl=1") then
            some "Dropbox links must end in ?dl=1 to be direct."
          else if strIncludes lower "app.iosgods.com" &&
              !(strIncludes lower ".ipa") then
            some "iOSGods Store links break SideStore. You need the direct .ipa link."
          else if strIncludes lower "github.com" &&
              strIncludes lower "/blob/" then
            some githubBlobMsg
          else if strIncludes lower "github.com" &&
              !(strIncludes lower "/releases/download/") &&
              !(strIncludes lower "raw") then
            some "This looks like a GitHub page, not a file. Use the \x27Assets\x27 download link."
          else if strIncludes lower "archive.org/details/" then
            some "This is a webpage. Use the direct file link from \x27download\x27 or right-click the IPA > Copy Link."
          else none
        | URLContext.image => none
        | URLContext.website => none

theorem cmpZeros_range : ∀ bs : List Nat, cmpZeros bs = -1 ∨ cmpZeros bs = 0
  | [] => Or.inr rfl
  | b :: bs => by
    by_cases h : 0 < b
    · simp [cmpZeros, h]
    · simpa [cmpZeros, h] using cmpZeros_range bs

theorem compareNumParts_nil_right :
    ∀ as : List Nat, compareNumParts as [] = -(cmpZeros as)
  | [] => by simp [compareNumParts, cmpZeros]
  | a :: as => by
    by_cases h : 0 < a
    · simp [compareNumParts, cmpZeros, h]
    · simp [compareNumParts, cmpZeros, h, compareNumParts_nil_right as]

theorem compareNumParts_antisymm :
    ∀ a b : List Nat, compareNumParts a b = -(compareNumParts b a)
  | [], bs => by
    simp [compareNumParts, compareNumParts_nil_right]
  | a :: as, [] => by
    rw [compareNumParts_nil_right]; rfl
  | a :: as, b :: bs => by
    simp only [compareNumParts]
    rcases Nat.lt_trichotomy a b with h | h | h
    · simp [h, Nat.lt_asymm h]
    · subst h
      simp [Nat.lt_irrefl, compareNumParts_antisymm as bs]
    · simp [h, Nat.lt_asymm h]

theorem compareNumParts_range :
    ∀ a b : List Nat,
      compareNumParts a b = -1 ∨ compareNumParts a b = 0 ∨ compareNumParts a b = 1
  | [], bs => by
    rcases cmpZeros_range bs with h | h <;> simp [compareNumParts, h]
  | a :: as, [] => by
    by_cases h : 0 < a
    · simp [compareNumParts, h]
    · simpa [compareNumParts, h] using compareNumParts_range as []
  | a :: as, b :: bs => by
    by_cases h1 : b < a
    · simp [compareNumParts, h1]
    · by_cases h2 : a < b
      · simp [compareNumParts, h1, h2]
      · simpa [compareNumParts, h1, h2] using compareNumParts_range as bs

theorem charListCmp_antisymm :
    ∀ a b : List Char, charListCmp a b = -(charListCmp b a)
  | [], [] => rfl
  | [], _ :: _ => rfl
  | _ :: _, [] => rfl
  | a :: as, b :: bs => by
    simp only [charListCmp]
    rcases Nat.lt_trichotomy a.toNat b.toNat with h | h | h
    · simp [h, Nat.lt_asymm h]
    · simp [h, Nat.lt_irrefl, charListCmp_antisymm as bs]
    · simp [h, Nat.lt_asymm h]

theorem charListCmp_range :
    ∀ a b : List Char,
      charListCmp a b = -1 ∨ charListCmp a b = 0 ∨ charListCmp a b = 1
  | [], [] => Or.inr (Or.inl rfl)
  | [], _ :: _ => Or.inl rfl
  | _ :: _, [] => Or.inr (Or.inr rfl)
  | a :: as, b :: bs => by
    by_cases h1 : a.toNat < b.toNat
    · simp [charListCmp, h1]
    · by_cases h2 : b.toNat < a.toNat
      · simp [charListCmp, h1, h2]
      · simpa [charListCmp, h1, h2] using charListCmp_range as bs

theorem compareVersions_antisymm (a b : String) :
    compareVersions a b = -(compareVersions b a) := by
  simp only [compareVersions]
  by_cases h : cleanVersion a = cleanVersion b
  · rw [if_pos h, if_pos h.symm]; decide
  · have h' : ¬ cleanVersion b = cleanVersion a := fun e => h e.symm
    rw [if_neg h, if_neg h']
    by_cases he : ((versionNums (cleanVersion a)).isEmpty &&
        (versionNums (cleanVersion b)).isEmpty) = true
    · have he2 : ((versionNums (cleanVersion b)).isEmpty &&
          (versionNums (cleanVersion a)).isEmpty) = true := by
        rw [Bool.and_comm]; exact he
      rw [if_pos he, if_pos he2]
      exact charListCmp_antisymm _ _
    · have he2 : ¬ ((versionNums (cleanVersion b)).isEmpty &&
          (versionNums (cleanVersion a)).isEmpty) = true := by
        rw [Bool.and_comm]; exact he
      rw [if_neg he, if_neg he2]
      exact compareNumParts_antisymm _ _

theorem compareVersions_range (a b : String) :
    compareVersions a b = -1 ∨ compareVersions a b = 0 ∨ compareVersions a b = 1 := by
  simp only [compareVersions]
  by_cases h : cleanVersion a = cleanVersion b
  · rw [if_pos h]; exact Or.inr (Or.inl rfl)
  · rw [if_neg h]
    by_cases he : ((versionNums (cleanVersion a)).isEmpty &&
        (versionNums (cleanVersion b)).isEmpty) = true
    · rw [if_pos he]
      exact charListCmp_range (cleanVersion a).toList (cleanVersion b).toList
    · rw [if_neg he]
      exact compareNumParts_range (versionNums (cleanVersion a)) (versionNums (cleanVersion b))

theorem findEntry_eq_none_iff :
    ∀ (m : List (String × AppItem)) (k : String),
      findEntry m k = none ↔ k ∉ m.map Prod.fst
  | [], k => by simp [findEntry]
  | e :: m, k => by
    by_cases h : e.1 = k
    · simp [findEntry, h]
    · have hstep : findEntry (e :: m) k = findEntry m k := by
        simp [findEntry, h]
      rw [hstep, findEntry_eq_none_iff m k]
      simp only [List.map_cons, List.mem_cons]
      constructor
      · intro hnm hor
        rcases hor with h1 | h1
        · exact h h1.symm
        · exact hnm h1
      · intro hall hk
        exact hall (Or.inr hk)

theorem findEntry_some_mem :
    ∀ (m : List (String × AppItem)) (k : String) (c : AppItem),
      findEntry m k = some c → (k, c) ∈ m
  | [], k, c => by simp [findEntry]
  | e :: m, k, c => by
    by_cases h : e.1 = k
    · subst h
      simp only [findEntry, if_pos rfl]
      rintro h2
      cases h2
      exact List.mem_cons_self _ _
    · simp only [findEntry, if_neg h]
      intro h2
      exact List.mem_cons_of_mem _ (findEntry_some_mem m k c h2)

theorem mapSet_of_none :
    ∀ (m : List (String × AppItem)) (k : String) (a : AppItem),
      findEntry m k = none → mapSet m k a = m ++ [(k, a)]
  | [], k, a, _ => rfl
  | e :: m, k, a, h => by
    by_cases he : e.1 = k
    · simp [findEntry, he] at h
    · simp only [findEntry, if_neg he] at h
      simp [mapSet, he, mapSet_of_none m k a h]

theorem findEntry_mapSet_self :
    ∀ (m : List (String × AppItem)) (k : String) (a : AppItem),
      findEntry (mapSet m k a) k = some a
  | [], k, a => by simp [mapSet, findEntry]
  | e :: m, k, a => by
    by_cases he : e.1 = k
    · simp [mapSet, findEntry, he]
    · simp [mapSet, findEntry, he, findEntry_mapSet_self m k a]

theorem findEntry_mapSet_ne :
    ∀ (m : List (String × AppItem)) (k k' : String) (a : AppItem),
      k' ≠ k → findEntry (mapSet m k a) k' = findEntry m k'
  | [], k, k', a, h => by
    have h2 : ¬ k = k' := fun e => h e.symm
    simp [mapSet, findEntry, h2]
  | e :: m, k, k', a, h => by
    by_cases he : e.1 = k
    · have h2 : ¬ e.1 = k' := by rw [he]; exact fun e2 => h e2.symm
      have h3 : ¬ ((k, a).1 = k') := fun e2 => h e2.symm
      simp only [mapSet, if_pos he, findEntry]
      rw [if_neg h3, if_neg h2]
    · simp only [mapSet, if_neg he, findEntry]
      by_cases he' : e.1 = k'
      · rw [if_pos he', if_pos he']
      · rw [if_neg he', if_neg he']
        exact findEntry_mapSet_ne m k k' a h

theorem map_fst_mapSet_of_some :
    ∀ (m : List (String × AppItem)) (k : String) (c a : AppItem),
      findEntry m k = some c →
      (mapSet m k a).map Prod.fst = m.map Prod.fst
  | [], k, c, a => by simp [findEntry]
  | e :: m, k, c, a => by
    by_cases he : e.1 = k
    · simp [mapSet, he]
    · simp only [findEntry, if_neg he]
      intro h
      simp [mapSet, he, map_fst_mapSet_of_some m k c a h]

theorem mem_mapSet :
    ∀ (m : List (String × AppItem)) (k : String) (a : AppItem)
      (e : String × AppItem), e ∈ mapSet m k a → e ∈ m ∨ e = (k, a)
  | [], k, a, e => by simp [mapSet]
  | e' :: m, k, a, e => by
    by_cases he : e'.1 = k
    · simp only [mapSet, if_pos he, List.mem_cons]
      rintro (h | h)
      · exact Or.inr h
      · exact Or.inl (Or.inr h)
    · simp only [mapSet, if_neg he, List.mem_cons]
      rintro (h | h)
      · exact Or.inl (Or.inl h)
      · rcases mem_mapSet m k a e h with h2 | h2
        · exact Or.inl (Or.inr h2)
        · exact Or.inr h2

theorem findEntry_insertApp_none (m : List (String × AppItem)) (a : AppItem)
    (h : findEntry m (dedupKey a) = none) :
    findEntry (insertApp m a) (dedupKey a) = some a := by
  simp only [insertApp, h]
  exact findEntry_mapSet_self m (dedupKey a) a

theorem findEntry_insertApp_some (m : List (String × AppItem)) (a c : AppItem)
    (h : findEntry m (dedupKey a) = some c) :
    findEntry (insertApp m a) (dedupKey a) = some (laterWins c a) := by
  simp only [insertApp, h, laterWins]
  by_cases d1 : compareVersions a.version c.version > 0
  · rw [if_pos d1, if_pos (by omega : compareVersions a.version c.version ≥ 0)]
    exact findEntry_mapSet_self m (dedupKey a) a
  · rw [if_neg d1]
    by_cases d2 : compareVersions a.version c.version = 0
    · rw [if_pos d2, if_pos (by omega : compareVersions a.version c.version ≥ 0)]
      exact findEntry_mapSet_self m (dedupKey a) a
    · rw [if_neg d2, if_neg (by omega : ¬ compareVersions a.version c.version ≥ 0)]
      exact h

theorem findEntry_insertApp_ne (m : List (String × AppItem)) (a : AppItem)
    (k : String) (h : k ≠ dedupKey a) :
    findEntry (insertApp m a) k = findEntry m k := by
  cases hf : findEntry m (dedupKey a) with
  | none =>
    simp only [insertApp, hf]
    exact findEntry_mapSet_ne m (dedupKey a) k a h
  | some c =>
    simp only [insertApp, hf]
    by_cases d1 : compareVersions a.version c.version > 0
    · rw [if_pos d1]; exact findEntry_mapSet_ne m (dedupKey a) k a h
    · rw [if_neg d1]
      by_cases d2 : compareVersions a.version c.version = 0
      · rw [if_pos d2]; exact findEntry_mapSet_ne m (dedupKey a) k a h
      · rw [if_neg d2]

theorem WFmap_insertApp (m : List (String × AppItem)) (a : AppItem)
    (h : WFmap m) : WFmap (insertApp m a) := by
  obtain ⟨hkeys, hnodup⟩ := h
  cases hf : findEntry m (dedupKey a) with
  | none =>
    simp only [insertApp, hf]
    rw [mapSet_of_none m (dedupKey a) a hf]
    constructor
    · intro e he
      rcases List.mem_append.mp he with h1 | h1
      · exact hkeys e h1
      · simp at h1
        subst h1
        rfl
    · rw [List.map_append]
      simp only [List.map_cons, List.map_nil]
      rw [List.nodup_append]
      refine ⟨hnodup, List.nodup_singleton _, ?_⟩
      intro x hx hx2
      simp at hx2
      subst hx2
      exact ((findEntry_eq_none_iff m (dedupKey a)).mp hf) hx
  | some c =>
    have hmain : ∀ v : AppItem, dedupKey v = dedupKey a →
        WFmap (mapSet m (dedupKey a) v) := by
      intro v hv
      constructor
      · intro e he
        rcases mem_mapSet m (dedupKey a) v e he with h1 | h1
        · exact hkeys e h1
        · subst h1
          exact hv
      · rw [map_fst_mapSet_of_some m (dedupKey a) c v hf]
        exact hnodup
    simp only [insertApp, hf]
    by_cases d1 : compareVersions a.version c.version > 0
    · rw [if_pos d1]; exact hmain a rfl
    · rw [if_neg d1]
      by_cases d2 : compareVersions a.version c.version = 0
      · rw [if_pos d2]; exact hmain a rfl
      · rw [if_neg d2]; exact ⟨hkeys, hnodup⟩

theorem WFmap_foldl :
    ∀ (l : List AppItem) (m : List (String × AppItem)),
      WFmap m → WFmap (l.foldl insertApp m)
  | [], _, h => h
  | a :: t, m, h => WFmap_foldl t (insertApp m a) (WFmap_insertApp m a h)

theorem findEntry_foldl :
    ∀ (l : List AppItem) (m : List (String × AppItem)) (k : String),
      findEntry (l.foldl insertApp m) k =
        optFold (findEntry m k) (l.filter fun x => dedupKey x == k)
  | [], m, k => by
    cases h : findEntry m k <;> simp [optFold, groupWinner, h]
  | a :: t, m, k => by
    rw [List.foldl_cons, findEntry_foldl t (insertApp m a) k]
    by_cases hk : dedupKey a = k
    · subst hk
      rw [List.filter_cons_of_pos (by simp)]
      cases hf : findEntry m (dedupKey a) with
      | none =>
        rw [findEntry_insertApp_none m a hf]
        simp [optFold, groupWinner]
      | some c =>
        rw [findEntry_insertApp_some m a c hf]
        simp [optFold, List.foldl_cons, laterWins]
    · rw [List.filter_cons_of_neg (by simp [hk]),
        findEntry_insertApp_ne m a k (fun e => hk e.symm)]

theorem map_snd_filter_key :
    ∀ (m : List (String × AppItem)), WFmap m → ∀ k : String,
      (m.map Prod.snd).filter (fun x => dedupKey x == k) =
        (findEntry m k).toList
  | [], _, k => by simp [findEntry]
  | e :: m, h, k => by
    obtain ⟨hkeys, hnodup⟩ := h
    have htail : WFmap m := by
      constructor
      · intro e' he'
        exact hkeys e' (List.mem_cons_of_mem _ he')
      · exact (List.nodup_cons.mp (by simpa using hnodup)).2
    have hename : dedupKey e.2 = e.1 := hkeys e (List.mem_cons_self _ _)
    by_cases hek : e.1 = k
    · have hkey : (dedupKey e.2 == k) = true := by
        rw [hename, hek]
        simp
      have hnone : findEntry m k = none := by
        rw [findEntry_eq_none_iff]
        rw [← hek]
        exact (List.nodup_cons.mp (by simpa using hnodup)).1
      simp only [List.map_cons, List.filter_cons, hkey, if_true, findEntry,
        if_pos hek]
      rw [map_snd_filter_key m htail k, hnone]
      rfl
    · have hkey : (dedupKey e.2 == k) = false := by
        rw [hename]
        simp [hek]
      simp only [List.map_cons, List.filter_cons, hkey, Bool.false_eq_true,
        if_false, findEntry, if_neg hek]
      exact map_snd_filter_key m htail k

theorem mem_snd_mapSet (m : List (String × AppItem)) (k : String)
    (v b : AppItem) (h : b ∈ (mapSet m k v).map Prod.snd) :
    b ∈ m.map Prod.snd ∨ b = v := by
  rcases List.mem_map.mp h with ⟨e, he, hb⟩
  rcases mem_mapSet m k v e he with h1 | h1
  · exact Or.inl (hb ▸ List.mem_map_of_mem Prod.snd h1)
  · subst h1
    exact Or.inr hb.symm

theorem mem_snd_insertApp (m : List (String × AppItem)) (a b : AppItem)
    (h : b ∈ (insertApp m a).map Prod.snd) :
    b ∈ m.map Prod.snd ∨ b = a := by
  rcases hf : findEntry m (dedupKey a) with _ | c
  · rw [insertApp, hf] at h
    exact mem_snd_mapSet m (dedupKey a) a b h
  · rw [insertApp, hf] at h
    simp only at h
    by_cases d1 : compareVersions a.version c.version > 0
    · rw [if_pos d1] at h
      exact mem_snd_mapSet m (dedupKey a) a b h
    · rw [if_neg d1] at h
      by_cases d2 : compareVersions a.version c.version = 0
      · rw [if_pos d2] at h
        exact mem_snd_mapSet m (dedupKey a) a b h
      · rw [if_neg d2] at h
        exact Or.inl h

theorem mem_snd_foldl :
    ∀ (l : List AppItem) (m : List (String × AppItem)) (b : AppItem),
      b ∈ ((l.foldl insertApp m).map Prod.snd) →
      b ∈ m.map Prod.snd ∨ b ∈ l
  | [], m, b, h => Or.inl h
  | a :: t, m, b, h => by
    rcases mem_snd_foldl t (insertApp m a) b h with h1 | h1
    · rcases mem_snd_insertApp m a b h1 with h2 | h2
      · exact Or.inl h2
      · exact Or.inr (h2 ▸ List.mem_cons_self _ _)
    · exact Or.inr (List.mem_cons_of_mem _ h1)

theorem mem_dedupApps (l : List AppItem) (b : AppItem)
    (h : b ∈ dedupApps l) : b ∈ l := by
  rcases mem_snd_foldl l [] b h with h1 | h1
  · simp at h1
  · exact h1

theorem foldl_insertApp_disjoint :
    ∀ (l : List AppItem) (m : List (String × AppItem)),
      (∀ x ∈ l, dedupKey x ∉ m.map Prod.fst) → (l.map dedupKey).Nodup →
      l.foldl insertApp m = m ++ l.map fun x => (dedupKey x, x)
  | [], m, _, _ => by simp
  | a :: t, m, hdisj, hnodup => by
    have hnone : findEntry m (dedupKey a) = none :=
      (findEntry_eq_none_iff m (dedupKey a)).mpr
        (hdisj a (List.mem_cons_self _ _))
    have hstep : insertApp m a = m ++ [(dedupKey a, a)] := by
      rw [insertApp, hnone]
      exact mapSet_of_none m (dedupKey a) a hnone
    rw [List.foldl_cons, hstep,
      foldl_insertApp_disjoint t (m ++ [(dedupKey a, a)]) ?_ ?_]
    · simp
    · intro x hx
      rw [List.map_append, List.mem_append]
      rintro (h1 | h1)
      · exact hdisj x (List.mem_cons_of_mem _ hx) h1
      · simp at h1
        have : dedupKey a ∈ t.map dedupKey := h1 ▸ List.mem_map_of_mem dedupKey hx
        exact (List.nodup_cons.mp (by simpa using hnodup)).1 this
    · exact (List.nodup_cons.mp (by simpa using hnodup)).2

theorem dedupApps_of_nodup_keys (l : List AppItem)
    (h : (l.map dedupKey).Nodup) : dedupApps l = l := by
  rw [dedupApps, foldl_insertApp_disjoint l [] (by simp) h]
  simp only [List.nil_append, List.map_map]
  have hcomp : (Prod.snd ∘ fun x : AppItem => (dedupKey x, x)) = id := by
    funext x
    rfl
  rw [hcomp, List.map_id]

theorem dedupApps_keys_nodup (l : List AppItem) :
    ((dedupApps l).map dedupKey).Nodup := by
  have hwf : WFmap (l.foldl insertApp []) :=
    WFmap_foldl l [] ⟨by simp, by simp⟩
  have : (dedupApps l).map dedupKey =
      (l.foldl insertApp []).map Prod.fst := by
    rw [dedupApps, List.map_map]
    exact List.map_congr_left fun e he => hwf.1 e he
  rw [this]
  exact hwf.2

theorem dedupApps_idem (l : List AppItem) :
    dedupApps (dedupApps l) = dedupApps l :=
  dedupApps_of_nodup_keys _ (dedupApps_keys_nodup l)

theorem dedupApps_filter_key (l : List AppItem) (k : String) :
    (dedupApps l).filter (fun x => dedupKey x == k) =
      (groupWinner (l.filter fun x => dedupKey x == k)).toList := by
  have hwf : WFmap (l.foldl insertApp []) :=
    WFmap_foldl l [] ⟨by simp, by simp⟩
  rw [dedupApps, map_snd_filter_key _ hwf k, findEntry_foldl l [] k]
  rfl

theorem length_pos_iff_ne_empty (s : String) : 0 < s.length ↔ s ≠ "" := by
  cases s with
  | mk data =>
    cases data with
    | nil => simp [String.length]
    | cons c cs =>
      simp only [String.length, List.length_cons]
      constructor
      · intro _ h
        have h2 : (c :: cs) = ([] : List Char) := congrArg String.data h
        cases h2
      · intro _
        exact Nat.succ_pos _
theorem dedupKey_eq_specDedupKey (a : AppItem) :
    dedupKey a = specDedupKey a := by
  simp only [dedupKey, specDedupKey]
  have hb : (decide (0 < (jsToLower (jsTrim a.bundleIdentifier)).length) &&
      strIncludes (jsToLower (jsTrim a.bundleIdentifier)) ".") = true ↔
      (jsToLower (jsTrim a.bundleIdentifier) ≠ "" ∧
        strIncludes (jsToLower (jsTrim a.bundleIdentifier)) "." = true) := by
    rw [Bool.and_eq_true, decide_eq_true_iff, length_pos_iff_ne_empty]
  by_cases h : jsToLower (jsTrim a.bundleIdentifier) ≠ "" ∧
      strIncludes (jsToLower (jsTrim a.bundleIdentifier)) "." = true
  · rw [if_pos (hb.mpr h), if_pos h]
  · rw [if_neg (fun hh => h (hb.mp hh)), if_neg h]
    by_cases h2 : jsToLower (jsTrim a.name) ≠ ""
    · rw [if_pos ((length_pos_iff_ne_empty _).mpr h2), if_pos h2]
    · rw [if_neg (fun hh => h2 ((length_pos_iff_ne_empty _).mp hh)), if_neg h2]

theorem getFilteredApps_dedup_true (apps : List AppItem) (fi : Bool) :
    getFilteredApps apps { deduplicate := true, filterIncompatible := fi } =
      dedupApps (if fi then apps.filter compatKeep else apps) := by
  simp [getFilteredApps]

theorem jStrOr_falsy (v : Option JValue) (d : String)
    (h : jTruthy v = false) : jStrOr v d = d := by
  cases v with
  | none => rfl
  | some x => simp [jStrOr, h]

theorem normalizeApp_ok (tint today : String) (idx : Nat) (j : JValue)
    (a : AppItem) (h : normalizeApp tint today idx j = Except.ok a) :
    a = normalizeAppCore tint today idx j := by
  cases j with
  | jnull => exact Except.noConfusion h
  | jbool b => injection h with h2; exact h2.symm
  | jnum n => injection h with h2; exact h2.symm
  | jstr s => injection h with h2; exact h2.symm
  | jarr l => injection h with h2; exact h2.symm
  | jobj fs => injection h with h2; exact h2.symm

theorem string_mk_eq_empty_iff (l : List Char) :
    String.mk l = "" ↔ l = [] := by
  constructor
  · intro h
    exact congrArg String.data h
  · intro h
    rw [h]

theorem jsTrim_eq_empty_iff (s : String) :
    jsTrim s = "" ↔ ∀ c ∈ s.toList, c.isWhitespace = true := by
  rw [jsTrim, string_mk_eq_empty_iff, List.reverse_eq_nil_iff,
    List.dropWhile_eq_nil_iff]
  constructor
  · intro h c hc
    rcases List.mem_append.mp
        ((List.takeWhile_append_dropWhile (p := Char.isWhitespace)
          (l := s.toList)) ▸ hc) with h1 | h1
    · exact List.mem_takeWhile_imp h1
    · exact h c (List.mem_reverse.mpr h1)
  · intro h c hc
    exact h c ((List.dropWhile_sublist _).mem (List.mem_reverse.mp hc))

theorem mem_splitOnCharAux (sep : Char) :
    ∀ (cs acc : List Char) (line : String),
      line ∈ splitOnCharAux sep cs acc →
      ∀ c ∈ line.toList, c ∈ cs ∨ c ∈ acc
  | [], acc, line => by
    simp only [splitOnCharAux, List.mem_singleton]
    intro h
    subst h
    intro c hc
    exact Or.inr (List.mem_reverse.mp hc)
  | ch :: cs, acc, line => by
    by_cases h : ch == sep
    · simp only [splitOnCharAux, if_pos h, List.mem_cons]
      rintro (hl | hl)
      · subst hl
        intro c hc
        exact Or.inr (List.mem_reverse.mp hc)
      · intro c hc
        rcases mem_splitOnCharAux sep cs [] line hl c hc with h1 | h1
        · exact Or.inl (Or.inr h1)
        · cases h1
    · simp only [splitOnCharAux, if_neg h]
      intro hl c hc
      rcases mem_splitOnCharAux sep cs (ch :: acc) line hl c hc with h1 | h1
      · exact Or.inl (List.mem_cons_of_mem _ h1)
      · rcases List.mem_cons.mp h1 with h2 | h2
        · exact Or.inl (h2 ▸ List.mem_cons_self _ _)
        · exact Or.inr h2

theorem ws_not_ctrlKey (c : Char) (h : c.isWhitespace = true) :
    isCtrlKeyChar c = false := by
  simp only [Char.isWhitespace, Bool.or_eq_true, decide_eq_true_eq] at h
  rcases h with ((h | h) | h) | h <;> subst h <;> decide

theorem parseControlLine_of_ws (line : String)
    (h : ∀ c ∈ line.toList, c.isWhitespace = true) :
    parseControlLine line = none := by
  cases hcs : line.toList with
  | nil =>
    simp only [parseControlLine, hcs]
    rfl
  | cons c cs =>
    have hw : c.isWhitespace = true :=
      h c (by rw [hcs]; exact List.mem_cons_self _ _)
    have hk : isCtrlKeyChar c = false := ws_not_ctrlKey c hw
    simp only [parseControlLine, hcs, List.takeWhile, hk]
    rfl

theorem foldl_parse_none :
    ∀ (lines : List String) (m : List (String × String)),
      (∀ l ∈ lines, parseControlLine l = none) →
      lines.foldl (fun m line =>
        match parseControlLine line with
        | some kv => strMapSet m kv.1 kv.2
        | none => m) m = m
  | [], _, _ => rfl
  | l :: ls, m, h => by
    rw [List.foldl_cons]
    have h1 := h l (List.mem_cons_self _ _)
    simp only [h1]
    exact foldl_parse_none ls m fun x hx => h x (List.mem_cons_of_mem _ hx)

theorem parseBlockFields_of_ws (block : String)
    (h : ∀ c ∈ block.toList, c.isWhitespace = true) :
    parseBlockFields block = [] := by
  rw [parseBlockFields]
  apply foldl_parse_none
  intro line hline
  apply parseControlLine_of_ws
  intro c hc
  rcases mem_splitOnCharAux '\n' block.toList [] line hline c hc with h1 | h1
  · exact h c h1
  · cases h1

/-- C1, counterexample: the comparator is not transitive, hence not a total
order.  `"Beta"` and `"0"` compare equal (the numeric components of `"0"`
are `[0]`, matched against zero padding), `"0"` and `"Alpha"` compare
equal, yet `"Beta"` ranks strictly above `"Alpha"` (both fall back to the
lexicographic path).  So equal rank is not transitive, refuting the claim
that `compare` induces a total order with transitivity on all triples. -/
theorem c1_total_order_counterexample :
    (compareVersions "Beta" "0" = 0 ∧ compareVersions "0" "Alpha" = 0 ∧
      compareVersions "Beta" "Alpha" = 1) ∧
    ¬ (∀ x y z : String, compareVersions x y = 0 → compareVersions y z = 0 →
        compareVersions x z = 0) := by
  refine ⟨by decide, fun h => ?_⟩
  have := h "Beta" "0" "Alpha" (by decide) (by decide)
  exact absurd this (by decide)

/-- C1, amended: `compareVersions` is total (it never throws: the Lean
embedding is a total function), always returns one of -1, 0, 1, and is
antisymmetric; `compare("v2.0", "2.0.0") = 0` and
`compare("10.0", "9.0") = 1` as the claim states.  Transitivity, however,
does not hold (see the counterexample), so the comparator does not induce
a total order. -/
theorem c1_comparator_amended :
    (∀ a b : String, compareVersions a b = -(compareVersions b a)) ∧
    (∀ a b : String, compareVersions a b = -1 ∨ compareVersions a b = 0 ∨
      compareVersions a b = 1) ∧
    compareVersions "v2.0" "2.0.0" = 0 ∧ compareVersions "10.0" "9.0" = 1 := by
  exact ⟨compareVersions_antisymm, compareVersions_range, by decide, by decide⟩

/-- C2, counterexample: with the three same-bundle-id apps carrying
versions `"Beta"`, `"0"`, `"Alpha"` (in that order), deduplication retains
the `"Alpha"` entry, although the `"Beta"` entry of the same group compares
strictly above it (`compareVersions "Alpha" "Beta" = -1`).  The retained
entry is therefore not "the one whose version is highest per the version
comparator": because the comparator is not transitive the sequential scan
can keep a non-maximal entry. -/
theorem c2_dedup_counterexample :
    getFilteredApps [cexBeta, cexZero, cexAlpha]
      { deduplicate := true, filterIncompatible := false } = [cexAlpha] ∧
    cexBeta ∈ [cexBeta, cexZero, cexAlpha] ∧
    dedupKey cexBeta = dedupKey cexAlpha ∧
    compareVersions cexAlpha.version cexBeta.version = -1 := by
  decide

/-- C2, amended: with `deduplicate = true`, `getFilteredApps` groups the
(possibly compatibility-filtered) apps by the derived key — `"bid:"` plus
the trimmed case-folded bundle identifier when non-empty and containing a
dot, else `"name:"` plus the trimmed case-folded name when non-empty, else
a per-entry fallback from the entry's own id (`dedupKey`, proved equal to
the spec-worded `specDedupKey`) — and retains exactly one entry per
non-empty group: the survivor of a left-to-right scan in which a
later-encountered entry replaces the current survivor exactly when its
version compares greater-or-equal (strictly better, or the exact-tie case,
where the later entry wins).  When the comparator behaves transitively on
the group this survivor is the version-highest, last-on-ties entry; in
particular two apps sharing bundle id `"com.a.app"` at versions `"1.0"`
and `"2.0"` deduplicate to exactly the `"2.0"` entry. -/
theorem c2_dedup_amended :
    (∀ (apps : List AppItem) (fi : Bool) (k : String),
      (getFilteredApps apps { deduplicate := true, filterIncompatible := fi
        }).filter (fun x => dedupKey x == k) =
        (groupWinner ((if fi then apps.filter compatKeep else apps).filter
          (fun x => dedupKey x == k))).toList) ∧
    (∀ a : AppItem, dedupKey a = specDedupKey a) ∧
    getFilteredApps [c2v1, c2v2]
      { deduplicate := true, filterIncompatible := false } = [c2v2] := by
  refine ⟨?_, dedupKey_eq_specDedupKey, by decide⟩
  intro apps fi k
  rw [getFilteredApps_dedup_true]
  exact dedupApps_filter_key _ k

/-- C3: for every `Repo` and every config, `processRepoForExport` runs
`getFilteredApps` over `repo.apps` and maps each survivor through
`exportApp`, whose output shape (`ExportedApp`) has no `id` and no
`compatibilityStatus` field at all; an empty `iconURL` is replaced by the
fixed placeholder URL, the screenshot list keeps exactly the entries that
are neither empty nor all-whitespace in their original relative order (a
sublist of the input), and every other repo-level and app-level field
passes through unchanged.  The spec's concrete example
`["", "  ", "https://x/1.png"]` serializes to `["https://x/1.png"]`. -/
theorem c3_export_serializer (repo : Repo) (config : ExportConfig) :
    (processRepoForExport repo config).name = repo.name ∧
    (processRepoForExport repo config).subtitle = repo.subtitle ∧
    (processRepoForExport repo config).description = repo.description ∧
    (processRepoForExport repo config).iconURL = repo.iconURL ∧
    (processRepoForExport repo config).headerImageURL = repo.headerImageURL ∧
    (processRepoForExport repo config).website = repo.website ∧
    (processRepoForExport repo config).tintColor = repo.tintColor ∧
    (processRepoForExport repo config).apps =
      (getFilteredApps repo.apps config).map exportApp ∧
    (∀ a : AppItem,
      (exportApp a).name = a.name ∧
      (exportApp a).bundleIdentifier = a.bundleIdentifier ∧
      (exportApp a).developerName = a.developerName ∧
      (exportApp a).version = a.version ∧
      (exportApp a).versionDate = a.versionDate ∧
      (exportApp a).versionDescription = a.versionDescription ∧
      (exportApp a).downloadURL = a.downloadURL ∧
      (exportApp a).localizedDescription = a.localizedDescription ∧
      (exportApp a).tintColor = a.tintColor ∧
      (exportApp a).size = a.size ∧
      (exportApp a).category = a.category ∧
      (exportApp a).iconURL =
        (if a.iconURL = "" then "https://placehold.co/128x128.png"
         else a.iconURL) ∧
      (exportApp a).screenshotURLs =
        a.screenshotURLs.filter (fun u => u != "" && jsTrim u != "") ∧
      List.Sublist (exportApp a).screenshotURLs a.screenshotURLs) ∧
    (exportApp c3shotApp).screenshotURLs = ["https://x/1.png"] := by
  refine ⟨rfl, rfl, rfl, rfl, rfl, rfl, rfl, rfl, fun a => ?_, by decide⟩
  exact ⟨rfl, rfl, rfl, rfl, rfl, rfl, rfl, rfl, rfl, rfl, rfl, rfl, rfl,
    List.filter_sublist _⟩

/-- C4: for every app list and every config with `deduplicate = true`
(either value of `filterIncompatible`), applying `getFilteredApps` twice
equals applying it once, element for element and in the same order: the
compatibility filter is idempotent and a second dedup pass over a list
whose derived keys are already pairwise distinct reinserts every entry at
a fresh key, reproducing the list. -/
theorem c4_filter_idempotent (apps : List AppItem) (fi : Bool) :
    getFilteredApps
      (getFilteredApps apps { deduplicate := true, filterIncompatible := fi })
      { deduplicate := true, filterIncompatible := fi } =
    getFilteredApps apps { deduplicate := true, filterIncompatible := fi } := by
  rw [getFilteredApps_dedup_true, getFilteredApps_dedup_true]
  cases fi with
  | false => simp [dedupApps_idem]
  | true =>
    simp only [if_true]
    have hkeep : (dedupApps (apps.filter compatKeep)).filter compatKeep =
        dedupApps (apps.filter compatKeep) := by
      apply List.filter_eq_self.mpr
      intro a ha
      exact (List.mem_filter.mp (mem_dedupApps _ a ha)).2
    rw [hkeep, dedupApps_idem]

/-- C5: with `filterIncompatible = true`, an app carrying any explicit
`compatibilityStatus` other than `unknown` is never subjected to the
keyword scan: the filter's verdict on such an app is independent of its
text fields — the blocked statuses `jailbreak_only`, `trollstore_only`,
`jit_required` always exclude and `safe` always keeps, whatever the app's
name or description.  In particular `c5app`, whose status is `safe` and
whose name contains "jailbreak only", is kept. -/
theorem c5_explicit_status_precedence :
    (∀ a : AppItem,
      compatKeep { a with compatibilityStatus := some CompatStatus.safe } = true ∧
      compatKeep { a with compatibilityStatus := some CompatStatus.jailbreak_only } = false ∧
      compatKeep { a with compatibilityStatus := some CompatStatus.trollstore_only } = false ∧
      compatKeep { a with compatibilityStatus := some CompatStatus.jit_required } = false) ∧
    strIncludes c5app.name "jailbreak only" = true ∧
    getFilteredApps [c5app]
      { deduplicate := false, filterIncompatible := true } = [c5app] := by
  exact ⟨fun a => ⟨rfl, rfl, rfl, rfl⟩, by decide, by decide⟩

/-- C6: with both `deduplicate` and `filterIncompatible` false,
`getFilteredApps` returns the input sequence itself — same length, same
order, same elements, including exact duplicates (the fast path of
src/types.ts line 254). -/
theorem c6_identity_fast_path (apps : List AppItem) :
    getFilteredApps apps
      { deduplicate := false, filterIncompatible := false } = apps := by
  simp [getFilteredApps]

/-- C7, counterexample: a JSON array root is not an object, yet
`processParsing` accepts it: `typeof [] === "object"` in the host, so the
`!source || typeof source !== "object"` check passes and a complete
default-shaped `Repo` is produced instead of a `MalformedInput` error. -/
theorem c7_root_check_counterexample :
    isJObj (unwrapSource (JValue.jarr [])) = false ∧
    isOkE (processParsing "2026-02-03" (JValue.jarr [])) = true := by
  decide

/-- C7, amended: whenever the root, after optionally unwrapping a nested
non-array object at key `source`, is neither a JSON object nor a JSON
array, `processParsing` fails — a `null`, boolean, number or string root
aborts with an error (for `null` the host throws on the `data.source`
property access).  An array root, by contrast, is accepted like an object
whose fields are all absent (the counterexample).  Failure is not limited
to such roots: an object root whose apps array contains a `null` entry
also aborts, because the host throws reading `app.id` (second conjunct,
the document with apps `[null]`).  On any failure no partial `Repo` is
produced: the result type is `Except`, an error carries no `Repo` at
all. -/
theorem c7_root_check_amended :
    (∀ (today : String) (data : JValue),
      isObjOrArr (unwrapSource data) = false →
      isOkE (processParsing today data) = false) ∧
    isOkE (processParsing "2026-02-03"
      (JValue.jobj [("apps", JValue.jarr [JValue.jnull])])) = false := by
  refine ⟨?_, by decide⟩
  intro today data h
  cases data with
  | jnull => rfl
  | jbool b =>
    rcases hu : unwrapSource (JValue.jbool b) with _ | _ | _ | _ | l | fs <;>
        rw [hu] at h
    · simp [processParsing, hu, isOkE]
    · simp [processParsing, hu, isOkE]
    · simp [processParsing, hu, isOkE]
    · simp [processParsing, hu, isOkE]
    · simp [isObjOrArr] at h
    · simp [isObjOrArr] at h
  | jnum n =>
    rcases hu : unwrapSource (JValue.jnum n) with _ | _ | _ | _ | l | fs <;>
        rw [hu] at h
    · simp [processParsing, hu, isOkE]
    · simp [processParsing, hu, isOkE]
    · simp [processParsing, hu, isOkE]
    · simp [processParsing, hu, isOkE]
    · simp [isObjOrArr] at h
    · simp [isObjOrArr] at h
  | jstr s =>
    rcases hu : unwrapSource (JValue.jstr s) with _ | _ | _ | _ | l | fs <;>
        rw [hu] at h
    · simp [processParsing, hu, isOkE]
    · simp [processParsing, hu, isOkE]
    · simp [processParsing, hu, isOkE]
    · simp [processParsing, hu, isOkE]
    · simp [isObjOrArr] at h
    · simp [isObjOrArr] at h
  | jarr l0 =>
    rcases hu : unwrapSource (JValue.jarr l0) with _ | _ | _ | _ | l | fs <;>
        rw [hu] at h
    · simp [processParsing, hu, isOkE]
    · simp [processParsing, hu, isOkE]
    · simp [processParsing, hu, isOkE]
    · simp [processParsing, hu, isOkE]
    · simp [isObjOrArr] at h
    · simp [isObjOrArr] at h
  | jobj fs0 =>
    rcases hu : unwrapSource (JValue.jobj fs0) with _ | _ | _ | _ | l | fs <;>
        rw [hu] at h
    · simp [processParsing, hu, isOkE]
    · simp [processParsing, hu, isOkE]
    · simp [processParsing, hu, isOkE]
    · simp [processParsing, hu, isOkE]
    · simp [isObjOrArr] at h
    · simp [isObjOrArr] at h

/-- Witness for the C7 amended theorem at the string root `"hello"`, whose
unwrapped form is neither object nor array. -/
theorem c7_root_check_witness :
    isObjOrArr (unwrapSource (JValue.jstr "hello")) = false ∧
    isOkE (processParsing "2026-02-03" (JValue.jstr "hello")) = false :=
  ⟨by decide, c7_root_check_amended.1 "2026-02-03" (JValue.jstr "hello")
    (by decide)⟩

/-- C8, counterexample: a block with only `Package` and `Filename` yields
an app whose `localizedDescription` is `"No description provided."` — not
the empty string the claim's fallback table states. -/
theorem c8_cydia_counterexample :
    ((parseCydiaBlock "https://r.example/" "2026-01-01" c8block).map
      (fun a => a.localizedDescription)) = some "No description provided." ∧
    "No description provided." ≠ "" := by
  decide

/-- C8, amended: a parsed Debian-control block yields an `AppItem` exactly
when it contains both a truthy `Package` and a truthy `Filename` field;
`Filename` and `Icon` values are resolved as URLs relative to the base
repository URL; and `version`, `name`, `developerName` fall back to
`"1.0"`, the package name, and `"Unknown"` when `Version` / `Name` /
`Author`-or-`Maintainer` are absent.  The `localizedDescription` fallback,
however, is the fixed string `"No description provided."`, not the empty
string the claim states. -/
theorem c8_cydia_amended (url today block : String) :
    ((parseCydiaBlock url today block).isSome =
      (jsStrTruthy (fieldGet (parseBlockFields block) "package") &&
       jsStrTruthy (fieldGet (parseBlockFields block) "filename"))) ∧
    (∀ a : AppItem, parseCydiaBlock url today block = some a →
      a.downloadURL =
        resolveURL ((fieldGet (parseBlockFields block) "filename").getD "")
          url ∧
      a.version = jsOr (fieldGet (parseBlockFields block) "version") "1.0" ∧
      a.name = jsOr (fieldGet (parseBlockFields block) "name")
        ((fieldGet (parseBlockFields block) "package").getD "") ∧
      a.bundleIdentifier =
        (fieldGet (parseBlockFields block) "package").getD "" ∧
      a.developerName = jsOr (fieldGet (parseBlockFields block) "author")
        (jsOr (fieldGet (parseBlockFields block) "maintainer") "Unknown") ∧
      a.localizedDescription =
        jsOr (fieldGet (parseBlockFields block) "description")
          "No description provided." ∧
      a.iconURL = (match fieldGet (parseBlockFields block) "icon" with
        | some ic => if ic != "" then resolveURL ic url else ""
        | none => "")) := by
  by_cases hb : jsTrim block = ""
  · have hfields : parseBlockFields block = [] :=
      parseBlockFields_of_ws block ((jsTrim_eq_empty_iff block).mp hb)
    rw [parseCydiaBlock, if_pos hb, hfields]
    constructor
    · rfl
    · intro a ha
      cases ha
  · rw [parseCydiaBlock, if_neg hb]
    cases hp : fieldGet (parseBlockFields block) "package" with
    | none =>
      simp only [hp]
      cases hf : fieldGet (parseBlockFields block) "filename" with
      | none =>
        exact ⟨rfl, fun a ha => by cases ha⟩
      | some fn =>
        exact ⟨rfl, fun a ha => by cases ha⟩
    | some pkg =>
      simp only [hp]
      cases hf : fieldGet (parseBlockFields block) "filename" with
      | none =>
        exact ⟨by simp [jsStrTruthy], fun a ha => by cases ha⟩
      | some fn =>
        simp only [hf]
        by_cases hc : (pkg != "" && fn != "") = true
        · rw [if_pos hc]
          refine ⟨by simp [jsStrTruthy, hc], ?_⟩
          intro a ha
          cases ha
          exact ⟨rfl, rfl, rfl, rfl, rfl, rfl, rfl⟩
        · rw [if_neg hc]
          have hcf : (pkg != "" && fn != "") = false := by
            cases hcb : (pkg != "" && fn != "") with
            | true => exact absurd hcb hc
            | false => rfl
          exact ⟨by simp [jsStrTruthy, hcf], fun a ha => by cases ha⟩

/-- Witness for the C8 amended theorem at the concrete block
`"Package: foo\nFilename: files/a.deb"` and base `"https://r.example/"`. -/
theorem c8_cydia_witness :
    c8app.downloadURL =
      resolveURL ((fieldGet (parseBlockFields c8block) "filename").getD "")
        "https://r.example/" :=
  ((c8_cydia_amended "https://r.example/" "2026-01-01" c8block).2 c8app
    (by decide)).1

/-- C9: the URL validator accepts (returns no reason for) every absent URL
and every empty or all-whitespace URL in every context; for context `file`
it returns a non-null reason on `"http://foo.com/a.ipa"` (the missing
`https` scheme is the first check), and on
`"https://github.com/u/r/blob/main/a.ipa"` it returns the reason that
tells the user to replace `/blob/` with `/raw/` (both substrings occur in
the returned message). -/
theorem c9_url_validator :
    (∀ ctx : URLContext, validateURL none ctx = none) ∧
    (∀ (u : String) (ctx : URLContext), jsTrim u = "" →
      validateURL (some u) ctx = none) ∧
    (validateURL (some "http://foo.com/a.ipa") URLContext.file).isSome =
      true ∧
    validateURL (some "https://github.com/u/r/blob/main/a.ipa")
      URLContext.file = some githubBlobMsg ∧
    strIncludes githubBlobMsg "/blob/" = true ∧
    strIncludes githubBlobMsg "/raw/" = true := by
  refine ⟨fun ctx => rfl, ?_, by decide, by decide, by decide, by decide⟩
  intro u ctx h
  rw [validateURL]
  simp [h]

/-- Witness for C9 at the all-whitespace URL `" "` in context `file`. -/
theorem c9_url_validator_witness :
    validateURL (some " ") URLContext.file = none :=
  c9_url_validator.2.1 " " URLContext.file (by decide)

/-- C10: in JSON-schema ingestion, every app entry whose
`bundleIdentifier`, `bundleID` and `identifier` keys are all absent or
empty (falsy) and that yields an app at all (a `null` entry instead aborts
the whole ingestion, since the host throws reading `app.id`) is assigned
the fixed bundle identifier `"com.example.app"`.  Consequently, ingesting
a document with two such entries describing unrelated apps gives both the
same identifier, hence the same deduplication key, and exporting with
`deduplicate = true` retains exactly one of the two. -/
theorem c10_default_bundle_id :
    (∀ (j : JValue) (tint today : String) (idx : Nat) (a : AppItem),
      normalizeApp tint today idx j = Except.ok a →
      jTruthy (jGet j "bundleIdentifier") = false →
      jTruthy (jGet j "bundleID") = false →
      jTruthy (jGet j "identifier") = false →
      a.bundleIdentifier = "com.example.app") ∧
    ((processParsing "2026-02-03" c10doc).toOption.map fun r =>
      (r.apps.length, r.apps.map (fun a => a.bundleIdentifier),
        (getFilteredApps r.apps
          { deduplicate := true, filterIncompatible := false }).length)) =
      some (2, ["com.example.app", "com.example.app"], 1) := by
  refine ⟨?_, by decide⟩
  intro j tint today idx a ha h1 h2 h3
  rw [normalizeApp_ok tint today idx j a ha]
  simp only [normalizeAppCore]
  rw [jStrOr_falsy _ _ h3, jStrOr_falsy _ _ h2, jStrOr_falsy _ _ h1]

/-- Witness for C10 at an app entry with no fields at all, which
normalizes successfully to `c10app`. -/
theorem c10_default_bundle_id_witness :
    c10app.bundleIdentifier = "com.example.app" :=
  c10_default_bundle_id.1 (JValue.jobj []) "#3b82f6" "2026-02-03" 0 c10app
    rfl rfl rfl rfl
